import Mathlib

/-!
Shallow embedding of `src/index.js` of the atomic-webpack-plugin repository.

Strings are modelled as `List Char`; absolute file paths are strings built by
`path.resolve(directory, name) = directory ++ "/" ++ name` for plain entry
names (nonempty, no `/`, not `.` or `..`), which is exactly how the scanner
builds the full paths it stores.

The two hard-coded regular expressions of the source are modelled by
executable functions that follow the backtracking semantics of JavaScript
`RegExp` on these particular patterns (`.` does not match any of the four
ECMAScript line terminators LF, CR, U+2028, U+2029, while `[^/]` matches
them all; greedy `.+` selects the rightmost viable match position; a
non-global `String.replace` with no match returns the string unchanged).
-/

/-- A JavaScript string (a file path), as a list of characters. -/
abbrev Str : Type := List Char

/-- The characters of the literal `index.tsx` appearing in all three
regular expressions of the source. -/
def idxChars : Str := "index.tsx".toList

/-- The apostrophe character used by the generated `from '...'` text. -/
def squote : Char := Char.ofNat 39

/-- The ECMAScript line terminators (LF, CR, LINE SEPARATOR, PARAGRAPH
SEPARATOR): `.` in a JavaScript regular expression without the `s` flag
matches any character except these four. -/
def isLineTerm (ch : Char) : Bool :=
  ch == '\n' || ch == '\r' || ch == '\u2028' || ch == '\u2029'

/-- `equalsIgnoreOrder` (src/index.js lines 66-75): multiset comparison of two
arrays of strings.  `new Set([...a, ...b])` is modelled by `(a ++ b).dedup`;
the loop checks that every value occurs equally often in `a` and in `b`. -/
def equalsIgnoreOrder (a b : List Str) : Bool :=
  if a.length ≠ b.length then false
  else ((a ++ b).dedup).all (fun v =>
    (a.filter (fun e => e = v)).length == (b.filter (fun e => e = v)).length)

/-- Helper for `testPattern`: does `cs` decompose as `m ++ "/index.tsx"` with
`m` nonempty and free of line terminators?  This is the `.+\/index\.tsx$`
tail of the default pattern (JavaScript `.` matches no line terminator). -/
def tailOK : List Char → Bool
  | [] => false
  | ch :: rest =>
      if isLineTerm ch then false
      else (rest == '/' :: idxChars) || tailOK rest

/-- `regularExpression.test fullPath` for the default pattern
`/\.?\/.+\/index\.tsx$/` (src/index.js line 11).  The match may start
anywhere (the test is unanchored), requires a `/`, then one or more
characters none of which is a line terminator, then `/index.tsx` at the end
of the string; the optional leading `\.?` never constrains matchability. -/
def testPattern : Str → Bool
  | [] => false
  | ch :: rest => (ch == '/' && tailOK rest) || testPattern rest

/-- One backtracking attempt of `\/([^/]+)\/index\.tsx` (the tail of the
`componentName` regex, src/index.js line 215) at a fixed `/` whose remaining
input is `cs`: read a nonempty slash-free segment, a `/`, then the literal
`index.tsx`.  On success, return the replacement result `$1` followed by the
input left over after the matched portion. -/
def attempt1 (cs : List Char) : Option (List Char) :=
  let seg := cs.takeWhile (fun ch => ch ≠ '/')
  let rest := cs.dropWhile (fun ch => ch ≠ '/')
  if seg = [] then none
  else if ('/' :: idxChars).isPrefixOf rest then
    some (seg ++ rest.drop ('/' :: idxChars).length)
  else none

/-- Find the rightmost position, strictly inside the list, where `attempt1`
succeeds, never moving past a line terminator (the leading greedy `.+` of
the regex cannot consume one, so later positions become unreachable). -/
def search1 : List Char → Option (List Char)
  | [] => none
  | ch :: rest =>
      if isLineTerm ch then none
      else
        match search1 rest with
        | some r => some r
        | none => if ch = '/' then attempt1 rest else none

/-- `key.replace(/^.+\.?\/([^/]+)\/index\.tsx/, "$1")` (src/index.js line
215).  The anchored `.+` requires at least one character (necessarily not a
line terminator) before the matching `/`; with no match the string is
returned unchanged. -/
def repl1 (s : Str) : Str :=
  match s with
  | [] => s
  | c0 :: rest =>
      if isLineTerm c0 then s
      else
        match search1 rest with
        | some r => r
        | none => s

/-- One backtracking attempt of `\/([^/]+\/[^/]+)\/index\.tsx` (the tail of
the `from` regex, src/index.js line 216) at a fixed `/`: two nonempty
slash-free segments, then `/index.tsx`; on success return the replacement
`./$1` followed by the leftover input. -/
def attempt2 (cs : List Char) : Option (List Char) :=
  let seg1 := cs.takeWhile (fun ch => ch ≠ '/')
  let rest1 := cs.dropWhile (fun ch => ch ≠ '/')
  if seg1 = [] ∨ rest1 = [] then none
  else
    let cs2 := rest1.tail
    let seg2 := cs2.takeWhile (fun ch => ch ≠ '/')
    let rest2 := cs2.dropWhile (fun ch => ch ≠ '/')
    if seg2 = [] then none
    else if ('/' :: idxChars).isPrefixOf rest2 then
      some ('.' :: '/' :: (seg1 ++ '/' :: (seg2 ++ rest2.drop ('/' :: idxChars).length)))
    else none

/-- Rightmost viable position for `attempt2`, mirroring `search1`. -/
def search2 : List Char → Option (List Char)
  | [] => none
  | ch :: rest =>
      if isLineTerm ch then none
      else
        match search2 rest with
        | some r => some r
        | none => if ch = '/' then attempt2 rest else none

/-- `key.replace(/^.+\.?\/([^/]+\/[^/]+)\/index\.tsx/, "./$1")`
(src/index.js line 216). -/
def repl2 (s : Str) : Str :=
  match s with
  | [] => s
  | c0 :: rest =>
      if isLineTerm c0 then s
      else
        match search2 rest with
        | some r => r
        | none => s

/-- The `CleanKeys` record of the source (`{key, componentName, from}`);
`from` is a reserved word in Lean, so the field is called `from_`. -/
structure CleanKeys where
  key : Str
  componentName : Str
  from_ : Str
deriving DecidableEq, Repr

/-- `Atomic.cleanKeys` (src/index.js lines 211-219). -/
def Atomic.cleanKeys (keys : List Str) : List CleanKeys :=
  keys.map fun key =>
    { key := key, componentName := repl1 key, from_ := repl2 key }

/-! ## The filesystem model

A snapshot of the directory tree under the resolved base directory.  A
directory node carries a `readable` flag: `fs.readdirSync` on an unreadable
directory throws, while `fs.accessSync(p, F_OK)` only requires the node to
exist.  Entry names are plain (nonempty, slash-free, not `.` or `..`), so
`path.resolve(dir, name)` is `dir ++ "/" ++ name`.
-/

mutual
inductive FSTree : Type where
  | file : Str → FSTree
  | dir : Str → Bool → FSList → FSTree
inductive FSList : Type where
  | nil : FSList
  | cons : FSTree → FSList → FSList
end

/-- `path.resolve(parent, name)` for a plain entry name. -/
def childStr (parent name : Str) : Str := parent ++ '/' :: name

/-! Full paths of every node (files and directories) in a list of entries:
the paths for which `fs.accessSync(p, F_OK)` succeeds. -/
mutual
def pathsEntry (parent : Str) : FSTree → List Str
  | .file n => [childStr parent n]
  | .dir n _ ch => childStr parent n :: pathsList (childStr parent n) ch
def pathsList (parent : Str) : FSList → List Str
  | .nil => []
  | .cons e rest => pathsEntry parent e ++ pathsList parent rest
end

/-! Specification-side description of a recursive scan: the full paths of all
files anywhere below the entries, in traversal order. -/
mutual
def specFilesEntry (parent : Str) : FSTree → List Str
  | .file n => [childStr parent n]
  | .dir n _ ch => specFilesList (childStr parent n) ch
def specFilesList (parent : Str) : FSList → List Str
  | .nil => []
  | .cons e rest => specFilesEntry parent e ++ specFilesList parent rest
end

/-- Specification-side description of a shallow scan: the full paths of the
top-level files only. -/
def specFilesTop (parent : Str) : FSList → List Str
  | .nil => []
  | .cons (.file n) rest => childStr parent n :: specFilesTop parent rest
  | .cons (.dir _ _ _) rest => specFilesTop parent rest

/-! Every directory node in the tree is readable. -/
mutual
def allReadableEntry : FSTree → Bool
  | .file _ => true
  | .dir _ r ch => r && allReadableList ch
def allReadableList : FSList → Bool
  | .nil => true
  | .cons e rest => allReadableEntry e && allReadableList rest
end

/-! `Atomic.readDirectory` (src/index.js lines 189-204) on one directory
entry / on a list of entries.  A file whose full path passes the pattern test
is recorded; a subdirectory is recursed into when `scanSubDirectories` is
true (throwing, modelled by `Except.error`, if it is unreadable) and skipped
entirely otherwise. -/
mutual
def readEntry (pattern : Str → Bool) (scanSubDirectories : Bool) (parent : Str) :
    FSTree → Except Unit (List Str)
  | .file n =>
      let fullStr := childStr parent n
      if pattern fullStr then .ok [fullStr] else .ok []
  | .dir n readable ch =>
      if scanSubDirectories then
        if readable then readDirectory pattern scanSubDirectories (childStr parent n) ch
        else .error ()
      else .ok []
def readDirectory (pattern : Str → Bool) (scanSubDirectories : Bool) (parent : Str) :
    FSList → Except Unit (List Str)
  | .nil => .ok []
  | .cons e rest =>
      match readEntry pattern scanSubDirectories parent e with
      | .error u => .error u
      | .ok ps =>
          match readDirectory pattern scanSubDirectories parent rest with
          | .error u => .error u
          | .ok qs => .ok (ps ++ qs)
end

/-- `Object.keys` of a JavaScript object filled by repeated
`obj[key] = true` assignments in the given order, with `seen` the keys
already present: the first occurrence of each key keeps its position, later
duplicates are dropped.  (Path keys never look like array indices, so
insertion order is preserved.) -/
def dedupFirstAux (seen : List Str) : List Str → List Str
  | [] => []
  | p :: rest =>
      if p ∈ seen then dedupFirstAux seen rest
      else p :: dedupFirstAux (p :: seen) rest

/-- `Object.keys(this.files)` after the assignments done by the scan. -/
def dedupFirst (l : List Str) : List Str := dedupFirstAux [] l

/-! ## The `Atomic` instance -/

/-- The ambient world an `Atomic` call runs against: the configuration held
by the instance together with a snapshot of the disk.  `basePath` is the
resolved base directory `path.resolve(this.context, this.base)`;
`baseExists` / `outputExists` model `fs.accessSync(..., F_OK)` on the
resolved base / resolved output path; `baseReadable` models whether
`fs.readdirSync(basePath)` itself succeeds; `writeOk` models whether
`fs.writeFileSync(resolvedOutput, content)` succeeds. -/
structure World where
  basePath : Str
  baseExists : Bool
  baseReadable : Bool
  entries : FSList
  outputExists : Bool
  writeOk : Bool
  scanSubDirectories : Bool
  pattern : Str → Bool
  header : Str

/-- The mutable fields of an `Atomic` instance that the claims observe:
`this.keys` and `this.files` (the latter as its ordered key list). -/
structure AtomicState where
  keys : List Str
  files : List Str
deriving DecidableEq, Repr

/-- `fs.accessSync(p, F_OK)` against the world: the path exists. -/
def existsStr (w : World) (p : Str) : Bool :=
  w.baseExists && (p == w.basePath || (pathsList w.basePath w.entries).contains p)

/-- `fs.readdirSync` driven scan of the resolved base directory, as performed
by `this.readDirectory(resolvedBase, ...)`. -/
def readBase (w : World) : Except Unit (List Str) :=
  if w.baseReadable then
    readDirectory w.pattern w.scanSubDirectories w.basePath w.entries
  else .error ()

/-- What `Atomic.check` passes to its callback, plus the instance state after
the call.  `wrote` records any output-file write performed during the call;
`check` contains no write, so it is always `none`. -/
structure CheckOut where
  changed : Bool
  cbKeys : List Str
  wrote : Option Str
  state : AtomicState
deriving DecidableEq, Repr

/-- Result of a `check` call: normal return, or an exception escaping to the
caller (carrying the value of `this.keys` at the moment of the throw). -/
inductive CheckRes : Type where
  | ok : CheckOut → CheckRes
  | threw : List Str → CheckRes
deriving DecidableEq, Repr

/-- `Atomic.check` (src/index.js lines 226-261).  Phase 1 tests each stored
key with `fs.accessSync` (a throw is caught and marks a change); only if no
change was found does phase 2 rescan the base directory — uncaught, so a
read failure escapes — and compare with `equalsIgnoreOrder`.  `this.files`
is only reassigned by the phase-2 scan; `this.keys` is never assigned. -/
def Atomic.check (w : World) (s : AtomicState) : CheckRes :=
  let ck := Atomic.cleanKeys s.keys
  let changes := ck.any (fun k => !(existsStr w k.key))
  if changes then
    .ok { changed := true, cbKeys := s.keys, wrote := none, state := s }
  else
    match readBase w with
    | .error _ => .threw s.keys
    | .ok scanned =>
        let fileKeys := dedupFirst scanned
        let equal := equalsIgnoreOrder fileKeys s.keys
        .ok { changed := !equal, cbKeys := s.keys, wrote := none,
              state := { keys := s.keys, files := fileKeys } }

/-- The string interpolation
`export { default as ${k.componentName} } from '${k.from}'\n`
(src/index.js line 302). -/
def exportLine (k : CleanKeys) : Str :=
  "export \x7b default as ".toList ++ k.componentName ++
    " \x7d from ".toList ++ squote :: (k.from_ ++ squote :: '\n' :: [])

/-- What `Atomic.run` returns, plus the write it performed and the instance
state after the call.  `result = none` models the bare `return {}` taken on
every reported failure; `result = some keys` models
`return { keys: this.keys, instance: this }`. -/
structure RunOut where
  result : Option (List Str)
  written : Option Str
  state : AtomicState
deriving DecidableEq, Repr

/-- Result of a `run` call: normal return or an escaping exception. -/
inductive RunRes : Type where
  | ok : RunOut → RunRes
  | threw : List Str → RunRes
deriving DecidableEq, Repr

/-- `Atomic.run` (src/index.js lines 268-323).  The two `accessSync` guards
are caught and turn into `return {}` before anything is scanned or written;
`getComponents` (lines 174-180) clears `this.files`, rescans — uncaught, so
a read failure escapes before `this.keys` is reassigned — and stores the
fresh key list; the content is the header followed by one export line per
clean key; a write failure is caught and turns into `return {}` after
`this.keys` was already replaced. -/
def Atomic.run (w : World) (s : AtomicState) : RunRes :=
  if !w.baseExists then
    .ok { result := none, written := none, state := s }
  else if !w.outputExists then
    .ok { result := none, written := none, state := s }
  else
    match readBase w with
    | .error _ => .threw s.keys
    | .ok scanned =>
        let keys := dedupFirst scanned
        let s1 : AtomicState := { keys := keys, files := keys }
        let cleanKeys := Atomic.cleanKeys keys
        let contentArray := cleanKeys.map exportLine
        let content := w.header ++ contentArray.flatten
        if w.writeOk then
          .ok { result := some keys, written := some content, state := s1 }
        else
          .ok { result := none, written := none, state := s1 }

/-! ## Concrete demonstration data

A small component tree (`Button`, `Card`, optionally `Alert`) under the
resolved base directory `/app/src/components`, used by the concrete
scenario conjuncts, witnesses and counterexamples below. -/

def baseDemo : Str := "/app/src/components".toList

/-- A component directory `<name>/index.tsx`. -/
def compDir (name : String) : FSTree :=
  .dir name.toList true (.cons (.file idxChars) .nil)

def kA : Str := "/app/src/components/Button/index.tsx".toList

def kB : Str := "/app/src/components/Card/index.tsx".toList

def kC : Str := "/app/src/components/Alert/index.tsx".toList

def entriesAB : FSList := .cons (compDir "Button") (.cons (compDir "Card") .nil)

def entriesB : FSList := .cons (compDir "Card") .nil

def entriesABC : FSList :=
  .cons (compDir "Button") (.cons (compDir "Card") (.cons (compDir "Alert") .nil))

/-- A healthy world over the given entries: base and output exist, every
directory is readable, writes succeed, default options. -/
def demoWorld (es : FSList) : World :=
  { basePath := baseDemo, baseExists := true, baseReadable := true, entries := es,
    outputExists := true, writeOk := true, scanSubDirectories := true,
    pattern := testPattern, header := "// header\n".toList }

def sAB : AtomicState := { keys := [kA, kB], files := [kA, kB] }

def sEmpty : AtomicState := { keys := [], files := [] }

/-- A world whose resolved base directory does not exist. -/
def wNoBase : World := { demoWorld entriesAB with baseExists := false }

/-- A world whose output file write fails. -/
def wNoWrite : World := { demoWorld entriesAB with writeOk := false }

/-- A world whose base directory exists (so `accessSync(F_OK)` passes) but
cannot be read (mode `000`): `fs.readdirSync` throws on it. -/
def wUnreadable : World := { demoWorld entriesAB with baseReadable := false }

/-- The outcome of a successful demo run over `entriesAB`. -/
def demoRunOut : RunOut :=
  { result := some [kA, kB],
    written := some ((demoWorld entriesAB).header ++
      ((Atomic.cleanKeys [kA, kB]).map exportLine).flatten),
    state := { keys := [kA, kB], files := [kA, kB] } }

/-- The outcome of a no-change demo `check` over `entriesAB`. -/
def checkABOut : CheckOut :=
  { changed := false, cbKeys := [kA, kB], wrote := none,
    state := { keys := [kA, kB], files := [kA, kB] } }

/-! ## Helper lemmas -/

/-- The per-value occurrence count `a.filter(e => e === v).length` of the
source is `List.count` (for any lawful equality test). -/
theorem count_eq_filter_length {α : Type} [inst : BEq α] [LawfulBEq α] [DecidableEq α]
    (l : List α) (v : α) :
    List.count v l = (l.filter (fun e => e = v)).length := by
  induction l with
  | nil => rfl
  | cons x xs ih =>
      by_cases hx : x = v
      · simp [List.filter_cons, hx, List.count_cons, ih]
      · simp [List.filter_cons, hx, List.count_cons, ih]

/-- `equalsIgnoreOrder` decides multiset equality: it returns `true` exactly
when the two lists are permutations of each other. -/
theorem equalsIgnoreOrder_iff_perm (a b : List Str) :
    equalsIgnoreOrder a b = true ↔ a.Perm b := by
  constructor
  · intro h
    unfold equalsIgnoreOrder at h
    split at h
    · exact absurd h (by simp)
    · rename_i hl
      rw [List.all_eq_true] at h
      refine List.perm_iff_count.mpr (fun v => ?_)
      by_cases hv : v ∈ a ++ b
      · have h2 := beq_iff_eq.mp (h v (List.mem_dedup.mpr hv))
        rw [@count_eq_filter_length Str (@instBEqOfDecidableEq Str _) _ _ a v,
          @count_eq_filter_length Str (@instBEqOfDecidableEq Str _) _ _ b v, h2]
      · rw [List.mem_append] at hv
        push_neg at hv
        rw [@count_eq_filter_length Str (@instBEqOfDecidableEq Str _) _ _ a v,
          @count_eq_filter_length Str (@instBEqOfDecidableEq Str _) _ _ b v]
        have ha : a.filter (fun e => e = v) = [] :=
          List.filter_eq_nil_iff.mpr (fun x hx => by
            simp only [decide_eq_true_eq]
            exact fun he => hv.1 (he ▸ hx))
        have hb : b.filter (fun e => e = v) = [] :=
          List.filter_eq_nil_iff.mpr (fun x hx => by
            simp only [decide_eq_true_eq]
            exact fun he => hv.2 (he ▸ hx))
        rw [ha, hb]
  · intro h
    unfold equalsIgnoreOrder
    rw [if_neg (by simp [h.length_eq])]
    rw [List.all_eq_true]
    intro v _
    rw [← @count_eq_filter_length Str (@instBEqOfDecidableEq Str _) _ _ a v,
      ← @count_eq_filter_length Str (@instBEqOfDecidableEq Str _) _ _ b v,
      List.perm_iff_count.mp h v]
    exact beq_self_eq_true _

theorem search1_append_some (xs ys : List Char) (r : List Char)
    (hnl : ∀ ch ∈ xs, isLineTerm ch = false) (h : search1 ys = some r) :
    search1 (xs ++ ys) = some r := by
  induction xs with
  | nil => simpa using h
  | cons x xs ih =>
      have hx : ¬(isLineTerm x = true) := by
        simp [hnl x (List.mem_cons_self x xs)]
      have hxs : ∀ ch ∈ xs, isLineTerm ch = false :=
        fun ch hm => hnl ch (List.mem_cons_of_mem _ hm)
      rw [List.cons_append]
      simp only [search1]
      rw [if_neg hx, ih hxs]

theorem search1_append_none (xs ys : List Char)
    (hsl : '/' ∉ xs) (h : search1 ys = none) : search1 (xs ++ ys) = none := by
  induction xs with
  | nil => simpa using h
  | cons x xs ih =>
      have hxs : '/' ∉ xs := fun hm => hsl (List.mem_cons_of_mem _ hm)
      have hx : ¬(x = '/') := fun he => hsl (he ▸ List.mem_cons_self x xs)
      rw [List.cons_append]
      simp only [search1]
      by_cases hn : isLineTerm x = true
      · rw [if_pos hn]
      · rw [if_neg hn, ih hxs, if_neg hx]

theorem search2_append_some (xs ys : List Char) (r : List Char)
    (hnl : ∀ ch ∈ xs, isLineTerm ch = false) (h : search2 ys = some r) :
    search2 (xs ++ ys) = some r := by
  induction xs with
  | nil => simpa using h
  | cons x xs ih =>
      have hx : ¬(isLineTerm x = true) := by
        simp [hnl x (List.mem_cons_self x xs)]
      have hxs : ∀ ch ∈ xs, isLineTerm ch = false :=
        fun ch hm => hnl ch (List.mem_cons_of_mem _ hm)
      rw [List.cons_append]
      simp only [search2]
      rw [if_neg hx, ih hxs]

theorem search2_append_none (xs ys : List Char)
    (hsl : '/' ∉ xs) (h : search2 ys = none) : search2 (xs ++ ys) = none := by
  induction xs with
  | nil => simpa using h
  | cons x xs ih =>
      have hxs : '/' ∉ xs := fun hm => hsl (List.mem_cons_of_mem _ hm)
      have hx : ¬(x = '/') := fun he => hsl (he ▸ List.mem_cons_self x xs)
      rw [List.cons_append]
      simp only [search2]
      by_cases hn : isLineTerm x = true
      · rw [if_pos hn]
      · rw [if_neg hn, ih hxs, if_neg hx]

theorem takeWhile_append_slash (xs ys : List Char) (h : '/' ∉ xs) :
    (xs ++ '/' :: ys).takeWhile (fun ch => ch ≠ '/') = xs := by
  induction xs with
  | nil => simp [List.takeWhile_cons]
  | cons x xs ih =>
      have hx : x ≠ '/' := fun he => h (he ▸ List.mem_cons_self x xs)
      have hxs : '/' ∉ xs := fun hm => h (List.mem_cons_of_mem _ hm)
      rw [List.cons_append, List.takeWhile_cons, if_pos (by simp [hx]), ih hxs]

theorem dropWhile_append_slash (xs ys : List Char) (h : '/' ∉ xs) :
    (xs ++ '/' :: ys).dropWhile (fun ch => ch ≠ '/') = '/' :: ys := by
  induction xs with
  | nil => simp [List.dropWhile_cons]
  | cons x xs ih =>
      have hx : x ≠ '/' := fun he => h (he ▸ List.mem_cons_self x xs)
      have hxs : '/' ∉ xs := fun hm => h (List.mem_cons_of_mem _ hm)
      rw [List.cons_append, List.dropWhile_cons_of_pos (by simp [hx]), ih hxs]

theorem attempt1_hit (c : List Char) (hc : c ≠ []) (hcs : '/' ∉ c) :
    attempt1 (c ++ '/' :: idxChars) = some c := by
  unfold attempt1
  simp only [takeWhile_append_slash c idxChars hcs, dropWhile_append_slash c idxChars hcs]
  rw [if_neg hc, if_pos (by decide)]
  rw [List.drop_length, List.append_nil]

theorem attempt2_miss (c : List Char) (hcs : '/' ∉ c) :
    attempt2 (c ++ '/' :: idxChars) = none := by
  unfold attempt2
  simp only [takeWhile_append_slash c idxChars hcs, dropWhile_append_slash c idxChars hcs,
    List.tail_cons]
  by_cases hc : c = []
  · rw [if_pos (Or.inl hc)]
  · rw [if_neg (by simp [hc])]
    simp only [show idxChars.takeWhile (fun ch => ch ≠ '/') = idxChars from by decide,
      show idxChars.dropWhile (fun ch => ch ≠ '/') = [] from by decide]
    rw [if_neg (by decide), if_neg (by decide)]

theorem attempt2_hit (g c : List Char) (hg : g ≠ []) (hgs : '/' ∉ g)
    (hc : c ≠ []) (hcs : '/' ∉ c) :
    attempt2 (g ++ '/' :: (c ++ '/' :: idxChars)) =
      some ('.' :: '/' :: (g ++ '/' :: c)) := by
  unfold attempt2
  simp only [takeWhile_append_slash g (c ++ '/' :: idxChars) hgs,
    dropWhile_append_slash g (c ++ '/' :: idxChars) hgs, List.tail_cons,
    takeWhile_append_slash c idxChars hcs, dropWhile_append_slash c idxChars hcs]
  rw [if_neg (by simp [hg]), if_neg hc, if_pos (by decide)]
  rw [List.drop_length, List.append_nil]

theorem search1_inner_some (c : List Char) (hc : c ≠ []) (hcs : '/' ∉ c) :
    search1 ('/' :: (c ++ '/' :: idxChars)) = some c := by
  have h0 : search1 (c ++ '/' :: idxChars) = none :=
    search1_append_none c ('/' :: idxChars) hcs (by decide)
  simp only [search1]
  rw [if_neg (by decide), h0]
  simpa using attempt1_hit c hc hcs

/-- The `componentName` replacement on a well-shaped key
`pre/g/c/index.tsx`: the rightmost viable match captures `c`, the name of
the directory immediately containing the file. -/
theorem repl1_eq (pre g c : List Char)
    (hpre : pre ≠ []) (hpn : ∀ ch ∈ pre, isLineTerm ch = false)
    (hgn : ∀ ch ∈ g, isLineTerm ch = false)
    (hc : c ≠ []) (hcs : '/' ∉ c) :
    repl1 (pre ++ '/' :: (g ++ '/' :: (c ++ '/' :: idxChars))) = c := by
  obtain ⟨p0, pre', rfl⟩ : ∃ p0 pre', pre = p0 :: pre' := by
    cases pre with
    | nil => exact absurd rfl hpre
    | cons p0 pre' => exact ⟨p0, pre', rfl⟩
  have hp0 : ¬(isLineTerm p0 = true) := by
    simp [hpn p0 (List.mem_cons_self p0 pre')]
  have hpn' : ∀ ch ∈ pre', isLineTerm ch = false :=
    fun ch hm => hpn ch (List.mem_cons_of_mem _ hm)
  have h2 : search1 ('/' :: (c ++ '/' :: idxChars)) = some c := search1_inner_some c hc hcs
  have h3 : search1 (g ++ '/' :: (c ++ '/' :: idxChars)) = some c :=
    search1_append_some g _ c hgn h2
  have h4 : search1 ('/' :: (g ++ '/' :: (c ++ '/' :: idxChars))) = some c := by
    simp only [search1]
    rw [if_neg (by decide), h3]
  have h5 : search1 (pre' ++ '/' :: (g ++ '/' :: (c ++ '/' :: idxChars))) = some c :=
    search1_append_some pre' _ c hpn' h4
  show repl1 (p0 :: (pre' ++ '/' :: (g ++ '/' :: (c ++ '/' :: idxChars)))) = c
  simp only [repl1]
  rw [if_neg hp0, h5]

theorem search2_inner_none (c : List Char) (hcs : '/' ∉ c) :
    search2 ('/' :: (c ++ '/' :: idxChars)) = none := by
  have h0 : search2 (c ++ '/' :: idxChars) = none :=
    search2_append_none c ('/' :: idxChars) hcs (by decide)
  simp only [search2]
  rw [if_neg (by decide), h0]
  simpa using attempt2_miss c hcs

/-- The `from` replacement on a well-shaped key `pre/g/c/index.tsx`: the
rightmost viable match captures `g/c` and yields `./g/c`. -/
theorem repl2_eq (pre g c : List Char)
    (hpre : pre ≠ []) (hpn : ∀ ch ∈ pre, isLineTerm ch = false)
    (hg : g ≠ []) (hgs : '/' ∉ g)
    (hc : c ≠ []) (hcs : '/' ∉ c) :
    repl2 (pre ++ '/' :: (g ++ '/' :: (c ++ '/' :: idxChars))) =
      '.' :: '/' :: (g ++ '/' :: c) := by
  obtain ⟨p0, pre', rfl⟩ : ∃ p0 pre', pre = p0 :: pre' := by
    cases pre with
    | nil => exact absurd rfl hpre
    | cons p0 pre' => exact ⟨p0, pre', rfl⟩
  have hp0 : ¬(isLineTerm p0 = true) := by
    simp [hpn p0 (List.mem_cons_self p0 pre')]
  have hpn' : ∀ ch ∈ pre', isLineTerm ch = false :=
    fun ch hm => hpn ch (List.mem_cons_of_mem _ hm)
  have h2 : search2 (g ++ '/' :: (c ++ '/' :: idxChars)) = none :=
    search2_append_none g _ hgs (search2_inner_none c hcs)
  have h3 : search2 ('/' :: (g ++ '/' :: (c ++ '/' :: idxChars))) =
      some ('.' :: '/' :: (g ++ '/' :: c)) := by
    simp only [search2]
    rw [if_neg (by decide), h2]
    simpa using attempt2_hit g c hg hgs hc hcs
  have h4 : search2 (pre' ++ '/' :: (g ++ '/' :: (c ++ '/' :: idxChars))) =
      some ('.' :: '/' :: (g ++ '/' :: c)) :=
    search2_append_some pre' _ _ hpn' h3
  show repl2 (p0 :: (pre' ++ '/' :: (g ++ '/' :: (c ++ '/' :: idxChars)))) = _
  simp only [repl2]
  rw [if_neg hp0, h4]

theorem tailOK_of_seg (c : List Char) (hc : c ≠ [])
    (hcn : ∀ ch ∈ c, isLineTerm ch = false) :
    tailOK (c ++ '/' :: idxChars) = true := by
  induction c with
  | nil => exact absurd rfl hc
  | cons c0 c' ih =>
      have h0 : ¬(isLineTerm c0 = true) := by
        simp [hcn c0 (List.mem_cons_self c0 c')]
      have hcn' : ∀ ch ∈ c', isLineTerm ch = false :=
        fun ch hm => hcn ch (List.mem_cons_of_mem _ hm)
      rw [List.cons_append]
      simp only [tailOK]
      rw [if_neg h0]
      cases hc' : c' with
      | nil => simp
      | cons d c'' =>
          rw [← hc', ih (by simp [hc']) hcn']
          simp

/-- A well-shaped key passes the default pattern test (the unanchored match
may begin at the `/` in front of the component directory). -/
theorem testPattern_of_seg (xs c : List Char) (hc : c ≠ [])
    (hcn : ∀ ch ∈ c, isLineTerm ch = false) :
    testPattern (xs ++ '/' :: (c ++ '/' :: idxChars)) = true := by
  induction xs with
  | nil =>
      simp only [List.nil_append, testPattern]
      rw [tailOK_of_seg c hc hcn]
      simp
  | cons x xs ih =>
      rw [List.cons_append]
      simp only [testPattern]
      rw [ih]
      simp

/-! Scan lemmas: with every directory readable, the recursive scan succeeds
and returns exactly the recursively collected file paths that pass the
pattern test; the shallow scan always succeeds and returns exactly the
top-level file paths that pass the test. -/
mutual
theorem readEntry_true_eq (pattern : Str → Bool) (parent : Str) :
    (e : FSTree) → allReadableEntry e = true →
      readEntry pattern true parent e = .ok ((specFilesEntry parent e).filter pattern)
  | .file n, _ => by
      simp only [readEntry, specFilesEntry, List.filter]
      by_cases hp : pattern (childStr parent n)
      · simp [hp]
      · simp [hp]
  | .dir n r ch, h => by
      have hr : r = true := by
        have h2 := h
        simp only [allReadableEntry, Bool.and_eq_true] at h2
        exact h2.1
      have hch : allReadableList ch = true := by
        have h2 := h
        simp only [allReadableEntry, Bool.and_eq_true] at h2
        exact h2.2
      simp only [readEntry, specFilesEntry, hr, if_pos rfl, if_pos trivial]
      exact readDirectory_true_eq pattern (childStr parent n) ch hch
theorem readDirectory_true_eq (pattern : Str → Bool) (parent : Str) :
    (es : FSList) → allReadableList es = true →
      readDirectory pattern true parent es = .ok ((specFilesList parent es).filter pattern)
  | .nil, _ => rfl
  | .cons e rest, h => by
      have he : allReadableEntry e = true := by
        have h2 := h
        simp only [allReadableList, Bool.and_eq_true] at h2
        exact h2.1
      have hrest : allReadableList rest = true := by
        have h2 := h
        simp only [allReadableList, Bool.and_eq_true] at h2
        exact h2.2
      simp only [readDirectory, specFilesList]
      rw [readEntry_true_eq pattern parent e he,
        readDirectory_true_eq pattern parent rest hrest]
      rw [List.filter_append]
end

theorem readDirectory_false_eq (pattern : Str → Bool) (parent : Str) :
    (es : FSList) →
      readDirectory pattern false parent es = .ok ((specFilesTop parent es).filter pattern)
  | .nil => rfl
  | .cons (.file n) rest => by
      simp only [readDirectory, readEntry, specFilesTop]
      rw [readDirectory_false_eq pattern parent rest]
      by_cases hp : pattern (childStr parent n)
      · rw [if_pos hp, List.filter_cons, if_pos hp]
        rfl
      · rw [if_neg hp, List.filter_cons, if_neg hp]
        rfl
  | .cons (.dir n r ch) rest => by
      simp only [readDirectory, readEntry, specFilesTop]
      rw [readDirectory_false_eq pattern parent rest]
      rfl

/-! Everything the scan returns is a path of a node in the tree. -/
mutual
theorem readEntry_subset_paths (pattern : Str → Bool) (sub : Bool) (parent : Str) :
    (e : FSTree) → (ps : List Str) → readEntry pattern sub parent e = .ok ps →
      ∀ p ∈ ps, p ∈ pathsEntry parent e
  | .file n, ps, h => by
      intro p hp
      simp only [readEntry] at h
      by_cases hpat : pattern (childStr parent n)
      · rw [if_pos hpat] at h
        cases h
        exact hp
      · rw [if_neg hpat] at h
        cases h
        simp at hp
  | .dir n r ch, ps, h => by
      intro p hp
      simp only [readEntry] at h
      cases hsub : sub with
      | false =>
          rw [hsub] at h
          rw [if_neg (by simp)] at h
          cases h
          simp at hp
      | true =>
          rw [hsub] at h
          rw [if_pos rfl] at h
          cases hr : r with
          | false =>
              rw [hr] at h
              rw [if_neg (by simp)] at h
              exact absurd h (by simp)
          | true =>
              rw [hr] at h
              rw [if_pos rfl] at h
              have hsp := readDirectory_subset_paths pattern true (childStr parent n) ch ps h p hp
              simp only [pathsEntry]
              exact List.mem_cons_of_mem _ hsp
theorem readDirectory_subset_paths (pattern : Str → Bool) (sub : Bool) (parent : Str) :
    (es : FSList) → (ps : List Str) → readDirectory pattern sub parent es = .ok ps →
      ∀ p ∈ ps, p ∈ pathsList parent es
  | .nil, ps, h => by
      intro p hp
      cases h
      simp at hp
  | .cons e rest, ps, h => by
      intro p hp
      simp only [readDirectory] at h
      cases he : readEntry pattern sub parent e with
      | error u =>
          rw [he] at h
          exact absurd h (by simp)
      | ok ps1 =>
          rw [he] at h
          cases hrest : readDirectory pattern sub parent rest with
          | error u =>
              rw [hrest] at h
              exact absurd h (by simp)
          | ok ps2 =>
              rw [hrest] at h
              simp only [Except.ok.injEq] at h
              subst h
              simp only [pathsList, List.mem_append]
              rcases List.mem_append.mp hp with h1 | h2
              · exact Or.inl (readEntry_subset_paths pattern sub parent e ps1 he p h1)
              · exact Or.inr (readDirectory_subset_paths pattern sub parent rest ps2 hrest p h2)
end

theorem dedupFirstAux_subset (seen : List Str) :
    (l : List Str) → ∀ p ∈ dedupFirstAux seen l, p ∈ l
  | [] => by
      intro p hp
      simp [dedupFirstAux] at hp
  | q :: rest => by
      intro p hp
      simp only [dedupFirstAux] at hp
      by_cases hq : q ∈ seen
      · rw [if_pos hq] at hp
        exact List.mem_cons_of_mem _ (dedupFirstAux_subset seen rest p hp)
      · rw [if_neg hq] at hp
        rcases List.mem_cons.mp hp with h1 | h2
        · exact h1 ▸ List.mem_cons_self q rest
        · exact List.mem_cons_of_mem _ (dedupFirstAux_subset (q :: seen) rest p h2)

/-- `Object.keys` only drops duplicates: its result is a sublist of the
assignments made. -/
theorem dedupFirst_subset (l : List Str) : ∀ p ∈ dedupFirst l, p ∈ l :=
  dedupFirstAux_subset [] l

/-- With the base directory and the whole tree readable, the rescan
succeeds. -/
theorem readBase_ok_of_readable (w : World) (hbr : w.baseReadable = true)
    (hr : allReadableList w.entries = true) : ∃ ps, readBase w = .ok ps := by
  unfold readBase
  rw [if_pos hbr]
  cases hs : w.scanSubDirectories with
  | true => exact ⟨_, readDirectory_true_eq w.pattern w.basePath w.entries hr⟩
  | false => exact ⟨_, readDirectory_false_eq w.pattern w.basePath w.entries⟩

/-- The phase-1 loop of `check` tests exactly the stored keys: `cleanKeys`
preserves the `key` field. -/
theorem cleanKeys_any_exists (w : World) (ks : List Str) :
    ((Atomic.cleanKeys ks).any (fun k => !(existsStr w k.key))) =
      (ks.any (fun k => !(existsStr w k))) := by
  unfold Atomic.cleanKeys
  induction ks with
  | nil => rfl
  | cons k ks ih => simp only [List.map_cons, List.any_cons, ih]

/-- `check`, branch 1: some stored key fails the existence test, so phase 2
is skipped and the instance state is untouched. -/
theorem check_eq_of_missing (w : World) (s : AtomicState)
    (h : s.keys.any (fun k => !(existsStr w k)) = true) :
    Atomic.check w s =
      .ok { changed := true, cbKeys := s.keys, wrote := none, state := s } := by
  simp only [Atomic.check]
  rw [cleanKeys_any_exists w s.keys, h, if_pos rfl]

/-- `check`, branch 2: every stored key exists and the rescan succeeds. -/
theorem check_eq_of_scan (w : World) (s : AtomicState) (scanned : List Str)
    (h : s.keys.any (fun k => !(existsStr w k)) = false)
    (hscan : readBase w = .ok scanned) :
    Atomic.check w s =
      .ok { changed := !(equalsIgnoreOrder (dedupFirst scanned) s.keys), cbKeys := s.keys,
            wrote := none, state := { keys := s.keys, files := dedupFirst scanned } } := by
  simp only [Atomic.check]
  rw [cleanKeys_any_exists w s.keys, h, if_neg (by simp), hscan]

/-- `check`, branch 3: every stored key exists but the rescan throws; the
exception escapes `check`. -/
theorem check_eq_of_scan_error (w : World) (s : AtomicState)
    (h : s.keys.any (fun k => !(existsStr w k)) = false)
    (hscan : readBase w = .error ()) :
    Atomic.check w s = .threw s.keys := by
  simp only [Atomic.check]
  rw [cleanKeys_any_exists w s.keys, h, if_neg (by simp), hscan]

/-- `run`, branch 1: missing base directory. -/
theorem run_eq_of_no_base (w : World) (s : AtomicState) (h : w.baseExists = false) :
    Atomic.run w s = .ok { result := none, written := none, state := s } := by
  simp only [Atomic.run]
  rw [h]
  simp

/-- `run`, branch 2: base exists, output path missing. -/
theorem run_eq_of_no_output (w : World) (s : AtomicState)
    (hb : w.baseExists = true) (h : w.outputExists = false) :
    Atomic.run w s = .ok { result := none, written := none, state := s } := by
  simp only [Atomic.run]
  rw [hb, h]
  simp

/-- `run`, branch 3: both guards pass but the scan throws; the exception
escapes `run` before `this.keys` is reassigned. -/
theorem run_eq_of_scan_error (w : World) (s : AtomicState)
    (hb : w.baseExists = true) (ho : w.outputExists = true)
    (hscan : readBase w = .error ()) :
    Atomic.run w s = .threw s.keys := by
  simp only [Atomic.run]
  rw [hb, ho, hscan]
  simp

/-- `run`, branch 4: successful scan and successful write. -/
theorem run_eq_of_write (w : World) (s : AtomicState) (scanned : List Str)
    (hb : w.baseExists = true) (ho : w.outputExists = true)
    (hscan : readBase w = .ok scanned) (hw : w.writeOk = true) :
    Atomic.run w s =
      .ok { result := some (dedupFirst scanned),
            written := some (w.header ++
              ((Atomic.cleanKeys (dedupFirst scanned)).map exportLine).flatten),
            state := { keys := dedupFirst scanned, files := dedupFirst scanned } } := by
  simp only [Atomic.run]
  rw [hb, ho, hscan, hw]
  simp

/-- `run`, branch 5: successful scan, failing write; `this.keys` stays
replaced even though nothing was persisted. -/
theorem run_eq_of_write_failure (w : World) (s : AtomicState) (scanned : List Str)
    (hb : w.baseExists = true) (ho : w.outputExists = true)
    (hscan : readBase w = .ok scanned) (hw : w.writeOk = false) :
    Atomic.run w s =
      .ok { result := none, written := none,
            state := { keys := dedupFirst scanned, files := dedupFirst scanned } } := by
  simp only [Atomic.run]
  rw [hb, ho, hscan, hw]
  simp

/-! ## Claim theorems -/

/-- **C1**: `detectChanges` (`Atomic.check`) reports `changed = true` iff
some stored key no longer exists on disk, or every stored key exists but the
fresh rescan of the base directory yields a key set that differs from the
stored keys as a multiset; in particular with `keys = {A, B}` it reports
`true` when `A` is deleted, `true` when a new matching file `C` appears, and
`false` when the directory matches the keys exactly. -/
theorem check_changed_iff :
    (∀ (w : World) (s : AtomicState) (scanned : List Str),
        readBase w = .ok scanned →
        ∃ out, Atomic.check w s = .ok out ∧ out.cbKeys = s.keys ∧
          (out.changed = true ↔
            ((∃ k ∈ s.keys, existsStr w k = false) ∨
              ((∀ k ∈ s.keys, existsStr w k = true) ∧
                ¬ (dedupFirst scanned).Perm s.keys)))) ∧
    Atomic.check (demoWorld entriesB) sAB =
      .ok { changed := true, cbKeys := [kA, kB], wrote := none, state := sAB } ∧
    Atomic.check (demoWorld entriesABC) sAB =
      .ok { changed := true, cbKeys := [kA, kB], wrote := none,
            state := { keys := [kA, kB], files := [kA, kB, kC] } } ∧
    Atomic.check (demoWorld entriesAB) sAB =
      .ok { changed := false, cbKeys := [kA, kB], wrote := none,
            state := { keys := [kA, kB], files := [kA, kB] } } := by
  refine ⟨?_, by decide, by decide, by decide⟩
  intro w s scanned hscan
  by_cases hmiss : s.keys.any (fun k => !(existsStr w k)) = true
  · refine ⟨_, check_eq_of_missing w s hmiss, rfl, ?_⟩
    constructor
    · intro _
      left
      rcases List.any_eq_true.mp hmiss with ⟨k, hk, hnk⟩
      exact ⟨k, hk, by simpa using hnk⟩
    · intro _
      rfl
  · have hall : s.keys.any (fun k => !(existsStr w k)) = false := by
      cases hval : s.keys.any (fun k => !(existsStr w k)) with
      | true => exact absurd hval hmiss
      | false => rfl
    have hex : ∀ k ∈ s.keys, existsStr w k = true := by
      intro k hk
      cases hv : existsStr w k with
      | true => rfl
      | false =>
          exact absurd (List.any_eq_true.mpr ⟨k, hk, by simp [hv]⟩) hmiss
    refine ⟨_, check_eq_of_scan w s scanned hall hscan, rfl, ?_⟩
    constructor
    · intro hch
      right
      refine ⟨hex, fun hperm => ?_⟩
      rw [(equalsIgnoreOrder_iff_perm _ _).mpr hperm] at hch
      simp at hch
    · rintro (⟨k, hk, hkf⟩ | ⟨-, hnp⟩)
      · exact absurd (hex k hk) (by simp [hkf])
      · cases hv : equalsIgnoreOrder (dedupFirst scanned) s.keys with
        | false => simp
        | true => exact absurd ((equalsIgnoreOrder_iff_perm _ _).mp hv) hnp

theorem check_changed_iff_witness :
    ∃ out, Atomic.check (demoWorld entriesAB) sAB = .ok out ∧ out.cbKeys = sAB.keys ∧
      (out.changed = true ↔
        ((∃ k ∈ sAB.keys, existsStr (demoWorld entriesAB) k = false) ∨
          ((∀ k ∈ sAB.keys, existsStr (demoWorld entriesAB) k = true) ∧
            ¬ (dedupFirst [kA, kB]).Perm sAB.keys))) :=
  check_changed_iff.1 (demoWorld entriesAB) sAB [kA, kB] (by rfl)

/-- **C2**: the multiset comparison used by `detectChanges` is
order-independent: `equalsIgnoreOrder` returns `true` on every pair of path
lists containing the same elements with the same multiplicities in any
order; consequently, when the stored keys are the freshly scanned key set in
a different traversal order, `check` reports no change. -/
theorem equalsIgnoreOrder_order_independent :
    (∀ a b : List Str, a.Perm b → equalsIgnoreOrder a b = true) ∧
    (∀ (w : World) (s : AtomicState) (scanned : List Str),
        w.baseExists = true → readBase w = .ok scanned →
        s.keys.Perm (dedupFirst scanned) →
        ∃ out, Atomic.check w s = .ok out ∧ out.changed = false) := by
  constructor
  · intro a b h
    exact (equalsIgnoreOrder_iff_perm a b).mpr h
  · intro w s scanned hbe hscan hperm
    have hex : ∀ k ∈ s.keys, existsStr w k = true := by
      intro k hk
      have h1 : k ∈ dedupFirst scanned := hperm.subset hk
      have h2 : k ∈ scanned := dedupFirst_subset scanned k h1
      have h3 : k ∈ pathsList w.basePath w.entries := by
        unfold readBase at hscan
        by_cases hbr : w.baseReadable = true
        · rw [if_pos hbr] at hscan
          exact readDirectory_subset_paths w.pattern w.scanSubDirectories w.basePath
            w.entries scanned hscan k h2
        · rw [if_neg hbr] at hscan
          exact absurd hscan (by simp)
      unfold existsStr
      rw [hbe]
      simp [List.contains, List.elem_iff, h3]
    have hall : s.keys.any (fun k => !(existsStr w k)) = false := by
      rw [List.any_eq_false]
      intro k hk
      simp [hex k hk]
    refine ⟨_, check_eq_of_scan w s scanned hall hscan, ?_⟩
    show (!(equalsIgnoreOrder (dedupFirst scanned) s.keys)) = false
    rw [(equalsIgnoreOrder_iff_perm _ _).mpr hperm.symm]
    rfl

theorem equalsIgnoreOrder_order_independent_witness :
    equalsIgnoreOrder ["x/a".toList, "x/b".toList] ["x/b".toList, "x/a".toList] = true :=
  equalsIgnoreOrder_order_independent.1 _ _ (by decide)

/-- **C3** (amended): for every matched file path of the shape
`pre/g/c/index.tsx` — a nonempty prefix `pre`, then the grandparent
directory `g` and the parent directory `c` of the matched file, both
nonempty and slash-free, all three free of ECMAScript line terminators
(LF, CR, U+2028, U+2029), which the regexes' `.+` cannot cross —
`Atomic.cleanKeys` derives `componentName = c`, the name of the directory
immediately containing the matched file, and `from = "./g/c"`, the last two
path segments joined with `/` and prefixed `./`.  The derivation is a pure
function of the key, hence deterministic. -/
theorem cleanKeys_spec (pre g c : List Char)
    (hpre : pre ≠ []) (hpn : ∀ ch ∈ pre, isLineTerm ch = false)
    (hg : g ≠ []) (hgs : '/' ∉ g) (hgn : ∀ ch ∈ g, isLineTerm ch = false)
    (hc : c ≠ []) (hcs : '/' ∉ c) (hcn : ∀ ch ∈ c, isLineTerm ch = false) :
    testPattern (pre ++ '/' :: (g ++ '/' :: (c ++ '/' :: idxChars))) = true ∧
    Atomic.cleanKeys [pre ++ '/' :: (g ++ '/' :: (c ++ '/' :: idxChars))] =
      [{ key := pre ++ '/' :: (g ++ '/' :: (c ++ '/' :: idxChars)),
         componentName := c,
         from_ := '.' :: '/' :: (g ++ '/' :: c) }] := by
  constructor
  · have hassoc : pre ++ '/' :: (g ++ '/' :: (c ++ '/' :: idxChars)) =
        (pre ++ '/' :: g) ++ '/' :: (c ++ '/' :: idxChars) := by
      rw [List.append_assoc, List.cons_append]
    rw [hassoc]
    exact testPattern_of_seg (pre ++ '/' :: g) c hc hcn
  · simp only [Atomic.cleanKeys, List.map_cons, List.map_nil]
    rw [repl1_eq pre g c hpre hpn hgn hc hcs,
      repl2_eq pre g c hpre hpn hg hgs hc hcs]

theorem cleanKeys_spec_witness :
    testPattern ("/app".toList ++ '/' ::
        ("components".toList ++ '/' :: ("Button".toList ++ '/' :: idxChars))) = true ∧
    Atomic.cleanKeys ["/app".toList ++ '/' ::
        ("components".toList ++ '/' :: ("Button".toList ++ '/' :: idxChars))] =
      [{ key := "/app".toList ++ '/' ::
           ("components".toList ++ '/' :: ("Button".toList ++ '/' :: idxChars)),
         componentName := "Button".toList,
         from_ := '.' :: '/' :: ("components".toList ++ '/' :: "Button".toList) }] :=
  cleanKeys_spec "/app".toList "components".toList "Button".toList
    (by decide) (by decide) (by decide) (by decide) (by decide)
    (by decide) (by decide) (by decide)

/-- **C3 counterexample**: `/a/Button/index.tsx` is accepted by the default
pattern, so it is a matched file path, and its `componentName` is derived as
`Button`; but the `from` regex needs one more leading segment, fails to
match, and `String.replace` returns the key unchanged — not the
`./a/Button` that the claim requires (the last two segments prefixed with
`./`). -/
theorem cleanKeys_short_path_counterexample :
    testPattern "/a/Button/index.tsx".toList = true ∧
    Atomic.cleanKeys ["/a/Button/index.tsx".toList] =
      [{ key := "/a/Button/index.tsx".toList,
         componentName := "Button".toList,
         from_ := "/a/Button/index.tsx".toList }] ∧
    "/a/Button/index.tsx".toList ≠ '.' :: '/' :: ("a".toList ++ '/' :: "Button".toList) :=
  ⟨by decide, by decide, by decide⟩

/-- **C4**: the scan over a readable base directory collects exactly the
files whose full resolved path passes the pattern test — every matching file
is included, every non-matching file and every directory is excluded; with
the recursive flag set, subdirectories are descended into, and with it
cleared, only top-level files are considered. -/
theorem readDirectory_spec :
    (∀ (pattern : Str → Bool) (parent : Str) (es : FSList),
        allReadableList es = true →
        readDirectory pattern true parent es =
          .ok ((specFilesList parent es).filter pattern)) ∧
    (∀ (pattern : Str → Bool) (parent : Str) (es : FSList),
        readDirectory pattern false parent es =
          .ok ((specFilesTop parent es).filter pattern)) ∧
    (∀ (pattern : Str → Bool) (parent : Str) (es : FSList) (p : Str),
        p ∈ (specFilesList parent es).filter pattern ↔
          (p ∈ specFilesList parent es ∧ pattern p = true)) := by
  refine ⟨readDirectory_true_eq, readDirectory_false_eq, ?_⟩
  intro pattern parent es p
  exact List.mem_filter

theorem readDirectory_spec_witness :
    readDirectory testPattern true baseDemo entriesAB =
      .ok ((specFilesList baseDemo entriesAB).filter testPattern) ∧
    readDirectory testPattern false baseDemo entriesAB =
      .ok ((specFilesTop baseDemo entriesAB).filter testPattern) :=
  ⟨readDirectory_spec.1 testPattern baseDemo entriesAB (by decide),
   readDirectory_spec.2.1 testPattern baseDemo entriesAB⟩

/-- **C5**: on a successful regenerate, the written output is exactly the
caller-supplied header inserted verbatim once at the top, followed by one
line `export { default as <componentName> } from '<importSpecifier>'` per
scanned key, in scan order, each line terminated by a newline, with no other
processing. -/
theorem run_output_spec (w : World) (s : AtomicState) (out : RunOut) (ks : List Str)
    (h : Atomic.run w s = .ok out) (hres : out.result = some ks) :
    out.written = some (w.header ++
      (ks.map (fun k =>
        "export \x7b default as ".toList ++ repl1 k ++ " \x7d from ".toList ++
          squote :: (repl2 k ++ squote :: '\n' :: []))).flatten) := by
  cases hb : w.baseExists with
  | false =>
      rw [run_eq_of_no_base w s hb] at h
      cases h
      simp at hres
  | true =>
      cases ho : w.outputExists with
      | false =>
          rw [run_eq_of_no_output w s hb ho] at h
          cases h
          simp at hres
      | true =>
          cases hscan : readBase w with
          | error u =>
              cases u
              rw [run_eq_of_scan_error w s hb ho hscan] at h
              simp at h
          | ok scanned =>
              cases hw : w.writeOk with
              | false =>
                  rw [run_eq_of_write_failure w s scanned hb ho hscan hw] at h
                  cases h
                  simp at hres
              | true =>
                  rw [run_eq_of_write w s scanned hb ho hscan hw] at h
                  cases h
                  simp only [Option.some.injEq] at hres
                  subst hres
                  have hfun : (exportLine ∘ fun key =>
                      ({ key := key, componentName := repl1 key,
                         from_ := repl2 key } : CleanKeys)) =
                      (fun k => "export \x7b default as ".toList ++ repl1 k ++
                        " \x7d from ".toList ++
                        squote :: (repl2 k ++ squote :: '\n' :: [])) := by
                    funext k
                    simp [exportLine, Function.comp]
                  simp only [Atomic.cleanKeys, List.map_map, hfun]

theorem run_output_spec_witness :
    demoRunOut.written = some ((demoWorld entriesAB).header ++
      ([kA, kB].map (fun k =>
        "export \x7b default as ".toList ++ repl1 k ++ " \x7d from ".toList ++
          squote :: (repl2 k ++ squote :: '\n' :: []))).flatten) :=
  run_output_spec (demoWorld entriesAB) sEmpty demoRunOut [kA, kB] (by rfl) (by rfl)

/-- **C6**: `run` is idempotent: running it a second time against the same
world (the write is guarded by an existence check, so it neither creates nor
removes tree nodes, and the scan never reads the output file's content)
returns the same result and writes byte-identical output content. -/
theorem run_idempotent (w : World) (s : AtomicState) (out1 out2 : RunOut)
    (h1 : Atomic.run w s = .ok out1) (h2 : Atomic.run w out1.state = .ok out2) :
    out1.written = out2.written ∧ out1.result = out2.result := by
  cases hb : w.baseExists with
  | false =>
      rw [run_eq_of_no_base w s hb] at h1
      rw [run_eq_of_no_base w out1.state hb] at h2
      cases h1
      cases h2
      exact ⟨rfl, rfl⟩
  | true =>
      cases ho : w.outputExists with
      | false =>
          rw [run_eq_of_no_output w s hb ho] at h1
          rw [run_eq_of_no_output w out1.state hb ho] at h2
          cases h1
          cases h2
          exact ⟨rfl, rfl⟩
      | true =>
          cases hscan : readBase w with
          | error u =>
              cases u
              rw [run_eq_of_scan_error w s hb ho hscan] at h1
              simp at h1
          | ok scanned =>
              cases hw : w.writeOk with
              | false =>
                  rw [run_eq_of_write_failure w s scanned hb ho hscan hw] at h1
                  rw [run_eq_of_write_failure w out1.state scanned hb ho hscan hw] at h2
                  cases h1
                  cases h2
                  exact ⟨rfl, rfl⟩
              | true =>
                  rw [run_eq_of_write w s scanned hb ho hscan hw] at h1
                  rw [run_eq_of_write w out1.state scanned hb ho hscan hw] at h2
                  cases h1
                  cases h2
                  exact ⟨rfl, rfl⟩

theorem run_idempotent_witness :
    demoRunOut.written = demoRunOut.written ∧ demoRunOut.result = demoRunOut.result :=
  run_idempotent (demoWorld entriesAB) sEmpty demoRunOut demoRunOut (by rfl) (by rfl)

/-- **C7**: when the resolved base directory or the resolved output path is
inaccessible, `run` aborts before scanning: it writes nothing, leaves the
stored keys (indeed the whole instance state) unchanged, and returns the
empty object instead of throwing. -/
theorem run_aborts_on_missing (w : World) (s : AtomicState)
    (h : w.baseExists = false ∨ w.outputExists = false) :
    Atomic.run w s = .ok { result := none, written := none, state := s } := by
  rcases h with h | h
  · exact run_eq_of_no_base w s h
  · cases hb : w.baseExists with
    | false => exact run_eq_of_no_base w s hb
    | true => exact run_eq_of_no_output w s hb h

theorem run_aborts_on_missing_witness :
    Atomic.run wNoBase sAB = .ok { result := none, written := none, state := sAB } :=
  run_aborts_on_missing wNoBase sAB (Or.inl rfl)

/-- **C8**: when the write fails after a successful scan, `run` returns the
empty object and writes nothing, but the stored keys (and the files map)
have already been replaced by the fresh scan result and stay that way in
memory. -/
theorem run_write_failure_keys_updated (w : World) (s : AtomicState) (scanned : List Str)
    (hb : w.baseExists = true) (ho : w.outputExists = true)
    (hscan : readBase w = .ok scanned) (hw : w.writeOk = false) :
    Atomic.run w s =
      .ok { result := none, written := none,
            state := { keys := dedupFirst scanned, files := dedupFirst scanned } } :=
  run_eq_of_write_failure w s scanned hb ho hscan hw

theorem run_write_failure_keys_updated_witness :
    Atomic.run wNoWrite sAB =
      .ok { result := none, written := none,
            state := { keys := dedupFirst [kA, kB], files := dedupFirst [kA, kB] } } :=
  run_write_failure_keys_updated wNoWrite sAB [kA, kB] rfl rfl (by rfl) rfl

/-- **C9**: `check` never mutates the stored keys and never writes the
output file: on a normal return the `keys` field is unchanged and the
callback receives exactly that unchanged key list (and no write happened);
even when the rescan throws, the keys at the moment of the escape are the
original ones (`check` contains no assignment to `this.keys`). -/
theorem check_frame (w : World) (s : AtomicState) :
    (∀ out, Atomic.check w s = .ok out →
      out.state.keys = s.keys ∧ out.cbKeys = s.keys ∧ out.wrote = none) ∧
    (∀ ks, Atomic.check w s = .threw ks → ks = s.keys) := by
  by_cases hmiss : s.keys.any (fun k => !(existsStr w k)) = true
  · rw [check_eq_of_missing w s hmiss]
    constructor
    · intro out hout
      cases hout
      exact ⟨rfl, rfl, rfl⟩
    · intro ks h
      simp at h
  · have hall : s.keys.any (fun k => !(existsStr w k)) = false := by
      cases hval : s.keys.any (fun k => !(existsStr w k)) with
      | true => exact absurd hval hmiss
      | false => rfl
    cases hscan : readBase w with
    | error u =>
        cases u
        rw [check_eq_of_scan_error w s hall hscan]
        constructor
        · intro out hout
          simp at hout
        · intro ks h
          cases h
          rfl
    | ok scanned =>
        rw [check_eq_of_scan w s scanned hall hscan]
        constructor
        · intro out hout
          cases hout
          exact ⟨rfl, rfl, rfl⟩
        · intro ks h
          simp at h

theorem check_frame_witness :
    checkABOut.state.keys = sAB.keys ∧ checkABOut.cbKeys = sAB.keys ∧
      checkABOut.wrote = none :=
  (check_frame (demoWorld entriesAB) sAB).1 checkABOut (by rfl)

/-- **C10 counterexample**: a base directory that exists (so the `accessSync`
guards pass) but cannot be read makes the unprotected
`this.readDirectory(resolvedBase, ...)` call throw, and the exception
escapes both `check` (during its phase-2 rescan) and `run` (during
`getComponents`), contradicting the claim that no filesystem error
propagates out of these entry points. -/
theorem scan_error_escapes_counterexample :
    Atomic.check wUnreadable sEmpty = CheckRes.threw [] ∧
    Atomic.run wUnreadable sEmpty = RunRes.threw [] :=
  ⟨rfl, rfl⟩

/-- **C10** (amended): the failures that `check` and `run` guard with
`try/catch` — the per-key existence probes, the base/output access checks
and the output write — are all converted to reported outcomes (a change
flag or an empty result) and never escape: whenever every directory read
succeeds, both entry points return normally, whatever the values of the
access and write flags.  Only a directory-read error during the rescan can
escape, as the counterexample shows. -/
theorem fs_errors_contained (w : World) (s : AtomicState)
    (hbr : w.baseReadable = true) (hr : allReadableList w.entries = true) :
    (∃ out, Atomic.check w s = .ok out) ∧ (∃ out2, Atomic.run w s = .ok out2) := by
  obtain ⟨ps, hps⟩ := readBase_ok_of_readable w hbr hr
  constructor
  · by_cases hmiss : s.keys.any (fun k => !(existsStr w k)) = true
    · exact ⟨_, check_eq_of_missing w s hmiss⟩
    · have hall : s.keys.any (fun k => !(existsStr w k)) = false := by
        cases hval : s.keys.any (fun k => !(existsStr w k)) with
        | true => exact absurd hval hmiss
        | false => rfl
      exact ⟨_, check_eq_of_scan w s ps hall hps⟩
  · cases hb : w.baseExists with
    | false => exact ⟨_, run_eq_of_no_base w s hb⟩
    | true =>
        cases ho : w.outputExists with
        | false => exact ⟨_, run_eq_of_no_output w s hb ho⟩
        | true =>
            cases hw : w.writeOk with
            | true => exact ⟨_, run_eq_of_write w s ps hb ho hps hw⟩
            | false => exact ⟨_, run_eq_of_write_failure w s ps hb ho hps hw⟩

theorem fs_errors_contained_witness :
    (∃ out, Atomic.check wNoWrite sAB = .ok out) ∧
    (∃ out2, Atomic.run wNoWrite sAB = .ok out2) :=
  fs_errors_contained wNoWrite sAB rfl (by decide)
